import Mathlib

/-!
Verification of the countdown numbers-round solver (solve_countdown.py).

The embedding mirrors the source functions: `combinations` is
itertools.combinations, `remaining_numbers` is the list comprehension
inside `all_subgroups`, `subgroups_fuel`/`all_subgroups` embed the
recursive generator `all_subgroups` (fuel = length of the input list is
always sufficient because every recursive call strictly decreases the
list length), `ops`/`pair_values`/`arithmetic_values` embed
`arithmetic_values`, `all_values` embeds `all_values`, and
`solveLoop`/`solve` embed the search loop of `solve` (the wall-clock
timing component of the returned tuple is omitted).  Candidates carry an
`Op` tag recording which yield statement produced them; the pipeline
erases the tag, so values, strings and enumeration order are unchanged.
-/

/-- itertools.combinations: all sorted-by-position selections of `k`
elements of `l`, in the same order Python yields them. -/
def combinations {α : Type} : List α → Nat → List (List α)
  | _, 0 => [[]]
  | [], _ + 1 => []
  | x :: xs, k + 1 =>
      (combinations xs k).map (fun t => x :: t) ++ combinations xs (k + 1)

/-- A grouping as yielded by the Python generator: a flat tuple of
numbers (the base case) or a pair of two sub-groupings. -/
inductive Grouping where
  | flat : List Int → Grouping
  | node : Grouping → Grouping → Grouping
deriving DecidableEq, Repr

/-- Number of tokens in a grouping. -/
def Grouping.size : Grouping → Nat
  | flat l => l.length
  | node a b => a.size + b.size

/-- The multiset of input tokens a grouping uses. -/
def Grouping.toks : Grouping → Multiset Int
  | flat l => ↑l
  | node a b => a.toks + b.toks

/-- `[x for x in list(ns) if x not in lcs]` from `all_subgroups`. -/
def remaining_numbers (ns lcs : List Int) : List Int :=
  ns.filter (fun x => !decide (x ∈ lcs))

/-- Fuel-indexed embedding of the recursive generator `all_subgroups`.
Fuel bounds the recursion depth only; `ns.length` fuel always suffices
since both recursive calls strictly decrease the list length. -/
def subgroups_fuel : Nat → List Int → List Grouping
  | fuel, ns =>
    if ns.length ≤ 2 then [Grouping.flat ns]
    else
      match fuel with
      | 0 => []
      | f + 1 =>
        (List.range' 1 ((ns.length + 1) / 2 - 1)).flatMap (fun i =>
          (combinations ns i).flatMap (fun lcs =>
            (combinations (remaining_numbers ns lcs) (ns.length - i)).flatMap (fun rcs =>
              (subgroups_fuel f lcs).flatMap (fun ls =>
                ls :: (subgroups_fuel f rcs).flatMap (fun rs =>
                  [rs, Grouping.node ls rs])))))

/-- `all_subgroups(ns)` from the source. -/
def all_subgroups (ns : List Int) : List Grouping :=
  subgroups_fuel ns.length ns

/-- Tag naming the yield statement of `arithmetic_values` that produced a
candidate (`divLR` is the `n0_str / n1_str` division, `divRL` the
`n1_str / n0_str` one). -/
inductive Op where
  | add | mul | subLR | subRL | divLR | divRL
deriving DecidableEq, Repr

/-- The candidates yielded by the two-operand branch of
`arithmetic_values` for one pair of already-evaluated operands, in
source order, tagged with the yield site. -/
def ops (n0 : Int) (n0_str : String) (n1 : Int) (n1_str : String) :
    List (Op × Int × String) :=
  [(Op.add, n0 + n1, "(" ++ n0_str ++ " + " ++ n1_str ++ ")"),
   (Op.mul, n0 * n1, n0_str ++ " * " ++ n1_str)] ++
  (if n0 = n1 then
    (Op.subLR, 0, "(" ++ n0_str ++ " - " ++ n1_str ++ ")") ::
      (if n0 ≠ 0 then [(Op.divLR, 1, n0_str ++ " / " ++ n1_str)] else [])
  else
    [(Op.subLR, n0 - n1, "(" ++ n0_str ++ " - " ++ n1_str ++ ")"),
     (Op.subRL, n1 - n0, "(" ++ n1_str ++ " - " ++ n0_str ++ ")")] ++
    (if n1 ≠ 0 ∧ n0 % n1 = 0 then
      [(Op.divLR, n0 / n1, n0_str ++ " / " ++ n1_str)]
    else if n0 ≠ 0 ∧ n1 % n0 = 0 then
      [(Op.divRL, n1 / n0, n1_str ++ " / " ++ n0_str)]
    else []))

/-- The nested loop of the two-operand branch of `arithmetic_values`:
all candidates over one candidate from each side, tags erased. -/
def pair_values (ls rs : List (Int × String)) : List (Int × String) :=
  ls.flatMap (fun a => rs.flatMap (fun b => (ops a.1 a.2 b.1 b.2).map (fun c => c.2)))

/-- `arithmetic_values(ns)` from the source.  A flat pair `(a, b)` loops
over `arithmetic_values(a)` and `arithmetic_values(b)`, each of which is
the single candidate `(n, str(n))` (the `int` branch); a nested pair
recurses on both sides.  Inputs of other shapes yield nothing. -/
def arithmetic_values : Grouping → List (Int × String)
  | Grouping.flat [] => []
  | Grouping.flat [n] => [(n, toString n)]
  | Grouping.flat [n0, n1] => pair_values [(n0, toString n0)] [(n1, toString n1)]
  | Grouping.flat (_ :: _ :: _ :: _) => []
  | Grouping.node l r => pair_values (arithmetic_values l) (arithmetic_values r)

/-- `all_values(ns)` from the source. -/
def all_values (ns : List Int) : List (Int × String) :=
  (all_subgroups ns).flatMap arithmetic_values

/-- The tuple `solve` returns, minus the wall-clock time component:
solution length, solution string, exactness flag. -/
structure SolveRes where
  len : Nat
  solution : String
  is_solved : Bool
deriving DecidableEq, Repr

/-- The candidate loop of `solve`: `closest` is the `(text, value,
difference)` best-seen record. -/
def solveLoop (t : Int) : List (Int × String) → String × Int × Int → SolveRes
  | [], closest =>
    let solution := closest.1 ++ " = " ++ toString closest.2.1 ++ ", " ++
      toString closest.2.2 ++ " away from " ++ toString t
    ⟨solution.length, solution, false⟩
  | (v, s) :: rest, closest =>
    let diff := |t - v|
    if diff = 0 then
      let solution := s ++ " = " ++ toString v
      ⟨solution.length, solution, true⟩
    else if diff < closest.2.2 then
      solveLoop t rest (s, v, diff)
    else
      solveLoop t rest closest

/-- `solve(ns, t)` from the source, with the initial best-seen record
`("0", 1, abs(t))`. -/
def solve (ns : List Int) (t : Int) : SolveRes :=
  solveLoop t (all_values ns) ("0", 1, |t|)

/-- Modelled from the spec: an arithmetic expression over number tokens,
"combined with addition, subtraction, multiplication, and exact integer
division" under the game's rules.  The source has no such datatype; the
claims compare the solver's candidates against it. -/
inductive GameExpr where
  | num : Int → GameExpr
  | add : GameExpr → GameExpr → GameExpr
  | sub : GameExpr → GameExpr → GameExpr
  | mul : GameExpr → GameExpr → GameExpr
  | div : GameExpr → GameExpr → GameExpr
deriving DecidableEq, Repr

/-- Modelled from the spec: the value of a game expression; division is
defined only when the divisor is nonzero and divides exactly. -/
def GameExpr.eval : GameExpr → Option Int
  | num n => some n
  | add a b =>
    match a.eval, b.eval with
    | some x, some y => some (x + y)
    | _, _ => none
  | sub a b =>
    match a.eval, b.eval with
    | some x, some y => some (x - y)
    | _, _ => none
  | mul a b =>
    match a.eval, b.eval with
    | some x, some y => some (x * y)
    | _, _ => none
  | div a b =>
    match a.eval, b.eval with
    | some x, some y => if y ≠ 0 ∧ x % y = 0 then some (x / y) else none
    | _, _ => none

/-- The multiset of number tokens an expression consumes (one use per
leaf occurrence). -/
def GameExpr.toks : GameExpr → Multiset Int
  | num n => {n}
  | add a b => a.toks + b.toks
  | sub a b => a.toks + b.toks
  | mul a b => a.toks + b.toks
  | div a b => a.toks + b.toks

/-- Every member of `combinations l k` has exactly `k` elements. -/
theorem combinations_length {α : Type} :
    ∀ (l : List α) (k : Nat) (l' : List α), l' ∈ combinations l k → l'.length = k := by
  intro l
  induction l with
  | nil =>
    intro k l' h
    cases k with
    | zero => simp [combinations] at h; simp [h]
    | succ k => simp [combinations] at h
  | cons x xs ih =>
    intro k l' h
    cases k with
    | zero => simp [combinations] at h; simp [h]
    | succ k =>
      rw [combinations, List.mem_append, List.mem_map] at h
      rcases h with ⟨t, ht, rfl⟩ | h
      · simp [ih k t ht]
      · exact ih (k + 1) l' h

/-- Every member of `combinations l k` is a sublist of `l`. -/
theorem combinations_sublist {α : Type} :
    ∀ (l : List α) (k : Nat) (l' : List α), l' ∈ combinations l k → List.Sublist l' l := by
  intro l
  induction l with
  | nil =>
    intro k l' h
    cases k with
    | zero => simp [combinations] at h; simp [h]
    | succ k => simp [combinations] at h
  | cons x xs ih =>
    intro k l' h
    cases k with
    | zero =>
      simp [combinations] at h
      simp [h]
    | succ k =>
      rw [combinations, List.mem_append, List.mem_map] at h
      rcases h with ⟨t, ht, rfl⟩ | h
      · exact (ih k t ht).cons₂ x
      · exact (ih (k + 1) l' h).cons x

/-- A value chosen into the left subset never occurs among the remaining
numbers (the comprehension removes every equal occurrence). -/
theorem count_remaining_of_mem {ns lcs : List Int} {v : Int} (h : v ∈ lcs) :
    (remaining_numbers ns lcs).count v = 0 := by
  rw [List.count_eq_zero]
  intro hv
  rw [remaining_numbers, List.mem_filter] at hv
  simp [h] at hv

/-- The remaining numbers form a sublist of the input. -/
theorem remaining_sublist (ns lcs : List Int) : List.Sublist (remaining_numbers ns lcs) ns :=
  List.filter_sublist ns

/-- Sublists embed into the multiset order. -/
theorem sublist_coe_le {l₁ l₂ : List Int} (h : List.Sublist l₁ l₂) :
    (↑l₁ : Multiset Int) ≤ ↑l₂ :=
  Multiset.coe_le.mpr h.subperm

/-- A chosen left subset together with a selection from the remaining
numbers never exceeds the input multiset. -/
theorem split_le {ns lcs rcs : List Int} (hl : List.Sublist lcs ns)
    (hr : List.Sublist rcs (remaining_numbers ns lcs)) :
    (↑lcs : Multiset Int) + (↑rcs : Multiset Int) ≤ (↑ns : Multiset Int) := by
  rw [Multiset.le_iff_count]
  intro a
  rw [Multiset.count_add, Multiset.coe_count, Multiset.coe_count, Multiset.coe_count]
  by_cases ha : a ∈ lcs
  · have h1 : rcs.count a = 0 :=
      Nat.le_zero.mp (le_of_le_of_eq (hr.count_le a) (count_remaining_of_mem ha))
    have h2 : lcs.count a ≤ ns.count a := hl.count_le a
    omega
  · have h1 : lcs.count a = 0 := List.count_eq_zero.mpr ha
    have h2 : rcs.count a ≤ ns.count a :=
      le_trans (hr.count_le a) ((remaining_sublist ns lcs).count_le a)
    omega

/-- Every grouping the generator yields uses a sub-multiset of the input
tokens. -/
theorem subgroups_toks_le :
    ∀ (fuel : Nat) (ns : List Int), ns.length ≤ fuel + 2 →
      ∀ g ∈ subgroups_fuel fuel ns, Grouping.toks g ≤ (↑ns : Multiset Int) := by
  intro fuel
  induction fuel with
  | zero =>
    intro ns hlen g hg
    rw [subgroups_fuel, if_pos hlen] at hg
    simp at hg
    simp [hg, Grouping.toks]
  | succ f ih =>
    intro ns hlen g hg
    rw [subgroups_fuel] at hg
    by_cases hb : ns.length ≤ 2
    · rw [if_pos hb] at hg
      simp at hg
      simp [hg, Grouping.toks]
    · rw [if_neg hb] at hg
      simp only [List.mem_flatMap, List.mem_range'_1, List.mem_cons, List.not_mem_nil,
        or_false] at hg
      obtain ⟨i, hi, lcs, hlcs, rcs, hrcs, ls, hls, hg⟩ := hg
      have hlcs_len : lcs.length = i := combinations_length ns i lcs hlcs
      have hlcs_sub : List.Sublist lcs ns := combinations_sublist ns i lcs hlcs
      have hrcs_len : rcs.length = ns.length - i :=
        combinations_length _ _ rcs hrcs
      have hrcs_sub : List.Sublist rcs (remaining_numbers ns lcs) :=
        combinations_sublist _ _ rcs hrcs
      have hN : 3 ≤ ns.length := by omega
      have hif : 1 ≤ i ∧ i ≤ (ns.length + 1) / 2 - 1 := by omega
      have hlf : lcs.length ≤ f + 2 := by omega
      have hrf : rcs.length ≤ f + 2 := by omega
      rcases hg with rfl | ⟨rs, hrs, hg⟩
      · exact le_trans (ih lcs hlf g hls) (sublist_coe_le hlcs_sub)
      · rcases hg with rfl | rfl
        · exact le_trans (ih rcs hrf g hrs)
            (le_trans (sublist_coe_le hrcs_sub)
              (sublist_coe_le (remaining_sublist ns lcs)))
        · calc Grouping.toks (Grouping.node ls rs)
              = Grouping.toks ls + Grouping.toks rs := rfl
            _ ≤ (↑lcs : Multiset Int) + (↑rcs : Multiset Int) :=
                add_le_add (ih lcs hlf ls hls) (ih rcs hrf rs hrs)
            _ ≤ (↑ns : Multiset Int) := split_le hlcs_sub hrcs_sub

/-- Every candidate the two-operand combiner emits is the value of a
game expression over the two operands' expressions. -/
theorem ops_sound (e0 e1 : GameExpr) (n0 n1 : Int) (n0_str n1_str : String)
    (h0 : e0.eval = some n0) (h1 : e1.eval = some n1) :
    ∀ c ∈ ops n0 n0_str n1 n1_str,
      ∃ e : GameExpr, e.eval = some c.2.1 ∧ e.toks = e0.toks + e1.toks := by
  intro c hc
  rw [ops] at hc
  split_ifs at hc with he hne0 hd1 hd2
  · -- n0 = n1, n0 ≠ 0
    subst he
    simp only [List.mem_append, List.mem_cons, List.not_mem_nil, or_false] at hc
    rcases hc with (rfl | rfl) | (rfl | rfl)
    · exact ⟨e0.add e1, by simp [GameExpr.eval, h0, h1], rfl⟩
    · exact ⟨e0.mul e1, by simp [GameExpr.eval, h0, h1], rfl⟩
    · exact ⟨e0.sub e1, by simp [GameExpr.eval, h0, h1], rfl⟩
    · exact ⟨e0.div e1,
        by simp [GameExpr.eval, h0, h1, hne0, Int.emod_self, Int.ediv_self hne0], rfl⟩
  · -- n0 = n1 = 0
    subst he
    simp only [List.mem_append, List.mem_cons, List.not_mem_nil, or_false] at hc
    rcases hc with (rfl | rfl) | rfl
    · exact ⟨e0.add e1, by simp [GameExpr.eval, h0, h1], rfl⟩
    · exact ⟨e0.mul e1, by simp [GameExpr.eval, h0, h1], rfl⟩
    · exact ⟨e0.sub e1, by simp [GameExpr.eval, h0, h1], rfl⟩
  · -- n0 ≠ n1, n1 ∣ n0 exactly
    simp only [List.mem_append, List.mem_cons, List.not_mem_nil, or_false] at hc
    rcases hc with (rfl | rfl) | ((rfl | rfl) | rfl)
    · exact ⟨e0.add e1, by simp [GameExpr.eval, h0, h1], rfl⟩
    · exact ⟨e0.mul e1, by simp [GameExpr.eval, h0, h1], rfl⟩
    · exact ⟨e0.sub e1, by simp [GameExpr.eval, h0, h1], rfl⟩
    · exact ⟨e1.sub e0, by simp [GameExpr.eval, h0, h1], by
        simp [GameExpr.toks, add_comm]⟩
    · exact ⟨e0.div e1, by simp [GameExpr.eval, h0, h1, hd1.1, hd1.2], rfl⟩
  · -- n0 ≠ n1, n0 ∣ n1 exactly
    simp only [List.mem_append, List.mem_cons, List.not_mem_nil, or_false] at hc
    rcases hc with (rfl | rfl) | ((rfl | rfl) | rfl)
    · exact ⟨e0.add e1, by simp [GameExpr.eval, h0, h1], rfl⟩
    · exact ⟨e0.mul e1, by simp [GameExpr.eval, h0, h1], rfl⟩
    · exact ⟨e0.sub e1, by simp [GameExpr.eval, h0, h1], rfl⟩
    · exact ⟨e1.sub e0, by simp [GameExpr.eval, h0, h1], by
        simp [GameExpr.toks, add_comm]⟩
    · exact ⟨e1.div e0, by simp [GameExpr.eval, h0, h1, hd2.1, hd2.2], by
        simp [GameExpr.toks, add_comm]⟩
  · -- n0 ≠ n1, no exact division either way
    simp only [List.mem_append, List.mem_cons, List.not_mem_nil, or_false] at hc
    rcases hc with (rfl | rfl) | (rfl | rfl)
    · exact ⟨e0.add e1, by simp [GameExpr.eval, h0, h1], rfl⟩
    · exact ⟨e0.mul e1, by simp [GameExpr.eval, h0, h1], rfl⟩
    · exact ⟨e0.sub e1, by simp [GameExpr.eval, h0, h1], rfl⟩
    · exact ⟨e1.sub e0, by simp [GameExpr.eval, h0, h1], by
        simp [GameExpr.toks, add_comm]⟩

/-- Lifting `ops_sound` over the nested cross-product loop. -/
theorem pair_values_sound (ls rs : List (Int × String)) (Ta Tb : Multiset Int)
    (ha : ∀ a ∈ ls, ∃ e : GameExpr, e.eval = some a.1 ∧ e.toks = Ta)
    (hb : ∀ b ∈ rs, ∃ e : GameExpr, e.eval = some b.1 ∧ e.toks = Tb) :
    ∀ c ∈ pair_values ls rs,
      ∃ e : GameExpr, e.eval = some c.1 ∧ e.toks = Ta + Tb := by
  intro c hc
  rw [pair_values] at hc
  simp only [List.mem_flatMap, List.mem_map] at hc
  obtain ⟨a, hals, b, hbrs, d, hd, rfl⟩ := hc
  obtain ⟨ea, hea, hta⟩ := ha a hals
  obtain ⟨eb, heb, htb⟩ := hb b hbrs
  obtain ⟨e, he, ht⟩ := ops_sound ea eb a.1 b.1 a.2 b.2 hea heb d hd
  exact ⟨e, he, by rw [ht, hta, htb]⟩

/-- Every candidate of the evaluator is the value of a game expression
over exactly the grouping's tokens. -/
theorem arithmetic_values_sound :
    ∀ g : Grouping, ∀ c ∈ arithmetic_values g,
      ∃ e : GameExpr, e.eval = some c.1 ∧ e.toks = g.toks := by
  intro g
  induction g with
  | flat l =>
    rcases l with _ | ⟨n0, _ | ⟨n1, _ | ⟨n2, rest⟩⟩⟩
    · intro c hc; simp [arithmetic_values] at hc
    · intro c hc
      simp only [arithmetic_values, List.mem_singleton] at hc
      subst hc
      exact ⟨GameExpr.num n0, rfl, by simp [GameExpr.toks, Grouping.toks]⟩
    · intro c hc
      rw [arithmetic_values] at hc
      have h := pair_values_sound [(n0, toString n0)] [(n1, toString n1)] {n0} {n1}
        (by intro a ha; rw [List.mem_singleton] at ha; subst ha
            exact ⟨GameExpr.num n0, rfl, rfl⟩)
        (by intro b hb; rw [List.mem_singleton] at hb; subst hb
            exact ⟨GameExpr.num n1, rfl, rfl⟩) c hc
      obtain ⟨e, he, ht⟩ := h
      refine ⟨e, he, ?_⟩
      rw [ht, Grouping.toks]
      rfl
    · intro c hc; simp [arithmetic_values] at hc
  | node l r ihl ihr =>
    intro c hc
    rw [arithmetic_values] at hc
    obtain ⟨e, he, ht⟩ :=
      pair_values_sound (arithmetic_values l) (arithmetic_values r)
        (Grouping.toks l) (Grouping.toks r) ihl ihr c hc
    exact ⟨e, he, by rw [ht, Grouping.toks]⟩

/-- A game expression always consumes at least one token. -/
theorem toks_card_pos : ∀ e : GameExpr, 0 < Multiset.card e.toks := by
  intro e
  induction e with
  | num n => simp [GameExpr.toks]
  | add a b iha ihb => simp only [GameExpr.toks, Multiset.card_add]; omega
  | sub a b iha ihb => simp only [GameExpr.toks, Multiset.card_add]; omega
  | mul a b iha ihb => simp only [GameExpr.toks, Multiset.card_add]; omega
  | div a b iha ihb => simp only [GameExpr.toks, Multiset.card_add]; omega

/-- Inputs of length at most 2 are the generator's base case for any
fuel. -/
theorem subgroups_fuel_base (fuel : Nat) (ns : List Int) (h : ns.length ≤ 2) :
    subgroups_fuel fuel ns = [Grouping.flat ns] := by
  cases fuel with
  | zero => rw [subgroups_fuel, if_pos h]
  | succ f => rw [subgroups_fuel, if_pos h]

/-- C8: every (value, text) candidate produced by the evaluator over the
generated groupings is the value of a game expression over a non-empty
sub-multiset of the input tokens, so no candidate uses any physical
input token more than once. -/
theorem evaluator_candidates_sound (ns : List Int) :
    ∀ c ∈ all_values ns,
      ∃ e : GameExpr, e.eval = some c.1 ∧ e.toks ≠ 0 ∧
        e.toks ≤ (↑ns : Multiset Int) := by
  intro c hc
  rw [all_values] at hc
  simp only [List.mem_flatMap] at hc
  obtain ⟨g, hg, hcg⟩ := hc
  obtain ⟨e, he, ht⟩ := arithmetic_values_sound g c hcg
  refine ⟨e, he, ?_, ?_⟩
  · intro h0
    have := toks_card_pos e
    rw [h0] at this
    simp at this
  · rw [ht]
    rw [all_subgroups] at hg
    exact subgroups_toks_le ns.length ns (by omega) g hg

/-- Witness for C8 at the concrete candidate (8, "(3 + 5)") of input [3, 5]. -/
theorem evaluator_candidates_sound_witness :
    ∃ e : GameExpr, e.eval = some (8 : Int) ∧ e.toks ≠ 0 ∧
      e.toks ≤ (↑([3, 5] : List Int) : Multiset Int) :=
  evaluator_candidates_sound [3, 5] (8, "(3 + 5)") (by decide)

/-- C1 (refuted): the expression 7 - 2 uses the non-empty sub-multiset
{7, 2} of the input [7, 7, 2] and evaluates exactly to the target 5, yet
solve([7, 7, 2], 5) returns an inexact Result. -/
theorem exact_expression_missed :
    GameExpr.eval (GameExpr.sub (GameExpr.num 7) (GameExpr.num 2)) = some 5 ∧
    GameExpr.toks (GameExpr.sub (GameExpr.num 7) (GameExpr.num 2)) ≠ 0 ∧
    GameExpr.toks (GameExpr.sub (GameExpr.num 7) (GameExpr.num 2)) ≤
      (↑([7, 7, 2] : List Int) : Multiset Int) ∧
    solve [7, 7, 2] 5 = ⟨30, "(7 + 7) / 2 = 7, 2 away from 5", false⟩ :=
  ⟨rfl, by decide, by decide, by decide⟩

/-- C2 (refuted): for the even-length input [1, 2, 3, 4] every enumerated
pair grouping has a singleton left block (the loop stops at
ceil(N/2) - 1, not floor(N/2)), so the size-2/size-2 split
{1, 2} | {3, 4} is never enumerated. -/
theorem even_split_missing :
    ((all_subgroups [1, 2, 3, 4]).all (fun g =>
        match g with
        | Grouping.node a _ => a.size == 1
        | _ => true)) = true ∧
    Grouping.node (Grouping.flat [1, 2]) (Grouping.flat [3, 4]) ∉
      all_subgroups [1, 2, 3, 4] :=
  ⟨by decide, by decide⟩

/-- C3 (refuted): after choosing the left subset (1,) from (1, 1, 2), the
comprehension removes both occurrences of 1, leaving [2] instead of
[1, 2]; the whole split is then dropped, so all_subgroups((1, 1, 2))
never yields the singleton (1,) nor any grouping pairing the two equal
tokens with 2. -/
theorem duplicate_tokens_not_independent :
    remaining_numbers [1, 1, 2] [1] = [2] ∧
    all_subgroups [1, 1, 2] =
      [Grouping.flat [2], Grouping.flat [1, 1],
       Grouping.node (Grouping.flat [2]) (Grouping.flat [1, 1])] :=
  ⟨rfl, by decide⟩

/-- C4 (refuted): for input [2] and target 1, the only candidate is
(2, "2") with difference 1 = abs(t), not strictly smaller than the
sentinel's difference, so solve reports the sentinel ("0", 1, 1) itself
as the inexact Result. -/
theorem sentinel_reported :
    all_values [2] = [(2, "2")] ∧
    solve [2] 1 = ⟨20, "0 = 1, 1 away from 1", false⟩ :=
  ⟨by decide, by decide⟩

/-- C5 (refuted): solve performs no input validation: on the empty
number list and on a non-positive target it silently completes the
degenerate search and returns a sentinel-based inexact Result. -/
theorem no_fail_fast :
    solve [] 5 = ⟨20, "0 = 1, 5 away from 5", false⟩ ∧
    solve [3] 0 = ⟨20, "0 = 1, 0 away from 0", false⟩ :=
  ⟨by decide, by decide⟩

/-- C7: for every single-number input [n] with target n, solve returns
an exact Result whose solution is the decimal representation of n on
both sides of the equals sign. -/
theorem single_number_exact (n : Int) :
    solve [n] n =
      ⟨(toString n ++ " = " ++ toString n).length,
       toString n ++ " = " ++ toString n, true⟩ := by
  have h1 : all_values [n] = [(n, toString n)] := by
    rw [all_values, all_subgroups]
    simp [subgroups_fuel, arithmetic_values]
  simp [solve, h1, solveLoop, sub_self, abs_zero]

/-- Witness for C7 at n = 5. -/
theorem single_number_exact_witness :
    solve [5] 5 =
      ⟨(toString (5 : Int) ++ " = " ++ toString (5 : Int)).length,
       toString (5 : Int) ++ " = " ++ toString (5 : Int), true⟩ :=
  single_number_exact 5

/-- C10: inputs of length at most 2 are yielded atomically as the whole
sequence, and in particular for [3, 5] no candidate has value 3. -/
theorem base_case_atomic :
    (∀ ns : List Int, ns.length ≤ 2 → all_subgroups ns = [Grouping.flat ns]) ∧
    (3 : Int) ∉ (all_values [3, 5]).map Prod.fst := by
  constructor
  · intro ns h
    rw [all_subgroups]
    exact subgroups_fuel_base ns.length ns h
  · decide

/-- Witness for C10 at the two-element input [3, 5]. -/
theorem base_case_atomic_witness :
    all_subgroups [3, 5] = [Grouping.flat [3, 5]] :=
  base_case_atomic.1 [3, 5] (by decide)

/-- The search loop returns the exact Result built from the first
candidate whose value equals the target, whatever the best-seen record
and whatever follows that candidate. -/
theorem solveLoop_find_exact (t : Int) (c : Int × String) :
    ∀ (l : List (Int × String)) (closest : String × Int × Int),
      l.find? (fun x => x.1 == t) = some c →
      solveLoop t l closest =
        ⟨(c.2 ++ " = " ++ toString c.1).length,
         c.2 ++ " = " ++ toString c.1, true⟩ := by
  intro l
  induction l with
  | nil => intro closest h; simp at h
  | cons a rest ih =>
    obtain ⟨v, s⟩ := a
    intro closest h
    by_cases hv : v = t
    · subst hv
      rw [List.find?_cons_of_pos _ (by simp)] at h
      have hc : c = (v, s) := (Option.some_inj.mp h).symm
      subst hc
      simp [solveLoop, sub_self, abs_zero]
    · have hb : (v == t) = false := beq_eq_false_iff_ne.mpr hv
      rw [List.find?_cons] at h
      simp only [hb] at h
      have hd : ¬ (|t - v| = 0) := by
        rw [abs_eq_zero, sub_eq_zero]
        exact fun hh => hv hh.symm
      simp only [solveLoop]
      rw [if_neg hd]
      split_ifs with hlt
      · exact ih _ h
      · exact ih _ h

/-- C6: the first candidate (in enumeration order) whose value equals
the target fully determines solve's Result: it is reported exact and
nothing after it (nor the best-seen record before it) influences the
outcome. -/
theorem first_exact_wins (ns : List Int) (t : Int) (c : Int × String)
    (h : (all_values ns).find? (fun x => x.1 == t) = some c) :
    solve ns t =
      ⟨(c.2 ++ " = " ++ toString c.1).length,
       c.2 ++ " = " ++ toString c.1, true⟩ :=
  solveLoop_find_exact t c (all_values ns) ("0", 1, |t|) h

/-- Witness for C6: on input [7, 7] with target 49 the first (and only)
exact candidate is (49, "7 * 7"). -/
theorem first_exact_wins_witness :
    solve [7, 7] 49 = ⟨10, "7 * 7 = 49", true⟩ :=
  (first_exact_wins [7, 7] 49 (49, "7 * 7") (by decide)).trans (by decide)

/-- C9: every division candidate emitted by the evaluator's combiner
satisfies the round-trip law: its value times the divisor operand's
value reproduces the dividend operand's value exactly, and its text is
dividend_str / divisor_str; hence no inexact division is ever emitted. -/
theorem division_roundtrip (n0 : Int) (n0_str : String) (n1 : Int) (n1_str : String) :
    ∀ c ∈ ops n0 n0_str n1 n1_str,
      (c.1 = Op.divLR → c.2.1 * n1 = n0 ∧ c.2.2 = n0_str ++ " / " ++ n1_str) ∧
      (c.1 = Op.divRL → c.2.1 * n0 = n1 ∧ c.2.2 = n1_str ++ " / " ++ n0_str) := by
  intro c hc
  rw [ops] at hc
  split_ifs at hc with he hne0 hd1 hd2 <;>
    simp only [List.mem_append, List.mem_cons, List.not_mem_nil, or_false] at hc
  · rcases hc with (rfl | rfl) | (rfl | rfl)
    · exact ⟨fun h => by simp at h, fun h => by simp at h⟩
    · exact ⟨fun h => by simp at h, fun h => by simp at h⟩
    · exact ⟨fun h => by simp at h, fun h => by simp at h⟩
    · exact ⟨fun h => ⟨by rw [one_mul, he], rfl⟩, fun h => by simp at h⟩
  · rcases hc with (rfl | rfl) | rfl
    · exact ⟨fun h => by simp at h, fun h => by simp at h⟩
    · exact ⟨fun h => by simp at h, fun h => by simp at h⟩
    · exact ⟨fun h => by simp at h, fun h => by simp at h⟩
  · rcases hc with (rfl | rfl) | ((rfl | rfl) | rfl)
    · exact ⟨fun h => by simp at h, fun h => by simp at h⟩
    · exact ⟨fun h => by simp at h, fun h => by simp at h⟩
    · exact ⟨fun h => by simp at h, fun h => by simp at h⟩
    · exact ⟨fun h => by simp at h, fun h => by simp at h⟩
    · exact ⟨fun h =>
        ⟨Int.ediv_mul_cancel (Int.dvd_of_emod_eq_zero hd1.2), rfl⟩,
        fun h => by simp at h⟩
  · rcases hc with (rfl | rfl) | ((rfl | rfl) | rfl)
    · exact ⟨fun h => by simp at h, fun h => by simp at h⟩
    · exact ⟨fun h => by simp at h, fun h => by simp at h⟩
    · exact ⟨fun h => by simp at h, fun h => by simp at h⟩
    · exact ⟨fun h => by simp at h, fun h => by simp at h⟩
    · exact ⟨fun h => by simp at h, fun h =>
        ⟨Int.ediv_mul_cancel (Int.dvd_of_emod_eq_zero hd2.2), rfl⟩⟩
  · rcases hc with (rfl | rfl) | (rfl | rfl)
    · exact ⟨fun h => by simp at h, fun h => by simp at h⟩
    · exact ⟨fun h => by simp at h, fun h => by simp at h⟩
    · exact ⟨fun h => by simp at h, fun h => by simp at h⟩
    · exact ⟨fun h => by simp at h, fun h => by simp at h⟩

/-- Witness for C9 at the exact division candidate (divLR, 2, "4 / 2")
of operands 4 and 2. -/
theorem division_roundtrip_witness :
    (2 : Int) * 2 = 4 ∧ "4 / 2" = "4" ++ " / " ++ "2" :=
  (division_roundtrip 4 "4" 2 "2" (Op.divLR, 2, "4 / 2") (by decide)).1 rfl
